import Mathlib

/-!
Shallow embedding of the request/response signing core of the `paynow-go`
repository (`internal/hash/hash.go`): `GenerateHash` and `ValidateHash`.

Go strings are byte slices; we model them as `List Nat` with every byte
below 256.  Literal strings are injected with `strBytes` (UTF-8 bytes of a
Lean string, which coincides with the bytes of the Go source literal).
The SHA-512 digest (`crypto/sha512`, an external dependency of the file)
is implemented from FIPS 180-4 over `Nat` arithmetic modulo `2 ^ 64`.
-/

/-- 64-bit addition: `Nat` addition reduced modulo `2 ^ 64`. -/
def add64 (a b : Nat) : Nat := (a + b) % 18446744073709551616

/-- 64-bit complement (valid for arguments below `2 ^ 64`). -/
def not64 (a : Nat) : Nat := 18446744073709551615 - a

/-- Right rotation of a 64-bit word. -/
def rotr64 (n x : Nat) : Nat := x / 2 ^ n + x % 2 ^ n * 2 ^ (64 - n)

/-- SHA-512 `Ch` function. -/
def shaCh (e f g : Nat) : Nat := Nat.xor (Nat.land e f) (Nat.land (not64 e) g)

/-- SHA-512 `Maj` function. -/
def shaMaj (a b c : Nat) : Nat :=
  Nat.xor (Nat.xor (Nat.land a b) (Nat.land a c)) (Nat.land b c)

/-- SHA-512 big sigma 0. -/
def bigSigma0 (x : Nat) : Nat :=
  Nat.xor (Nat.xor (rotr64 28 x) (rotr64 34 x)) (rotr64 39 x)

/-- SHA-512 big sigma 1. -/
def bigSigma1 (x : Nat) : Nat :=
  Nat.xor (Nat.xor (rotr64 14 x) (rotr64 18 x)) (rotr64 41 x)

/-- SHA-512 small sigma 0. -/
def smallSigma0 (x : Nat) : Nat :=
  Nat.xor (Nat.xor (rotr64 1 x) (rotr64 8 x)) (x >>> 7)

/-- SHA-512 small sigma 1. -/
def smallSigma1 (x : Nat) : Nat :=
  Nat.xor (Nat.xor (rotr64 19 x) (rotr64 61 x)) (x >>> 6)

/-- The 80 SHA-512 round constants (fractional parts of cube roots of the
first 80 primes, FIPS 180-4 section 4.2.3). -/
def shaK : List Nat :=
[4794697086780616226, 8158064640168781261, 13096744586834688815,
 16840607885511220156, 4131703408338449720, 6480981068601479193,
 10538285296894168987, 12329834152419229976, 15566598209576043074,
 1334009975649890238, 2608012711638119052, 6128411473006802146,
 8268148722764581231, 9286055187155687089, 11230858885718282805,
 13951009754708518548, 16472876342353939154, 17275323862435702243,
 1135362057144423861, 2597628984639134821, 3308224258029322869,
 5365058923640841347, 6679025012923562964, 8573033837759648693,
 10970295158949994411, 12119686244451234320, 12683024718118986047,
 13788192230050041572, 14330467153632333762, 15395433587784984357,
 489312712824947311, 1452737877330783856, 2861767655752347644,
 3322285676063803686, 5560940570517711597, 5996557281743188959,
 7280758554555802590, 8532644243296465576, 9350256976987008742,
 10552545826968843579, 11727347734174303076, 12113106623233404929,
 14000437183269869457, 14369950271660146224, 15101387698204529176,
 15463397548674623760, 17586052441742319658, 1182934255886127544,
 1847814050463011016, 2177327727835720531, 2830643537854262169,
 3796741975233480872, 4115178125766777443, 5681478168544905931,
 6601373596472566643, 7507060721942968483, 8399075790359081724,
 8693463985226723168, 9568029438360202098, 10144078919501101548,
 10430055236837252648, 11840083180663258601, 13761210420658862357,
 14299343276471374635, 14566680578165727644, 15097957966210449927,
 16922976911328602910, 17689382322260857208, 500013540394364858,
 748580250866718886, 1242879168328830382, 1977374033974150939,
 2944078676154940804, 3659926193048069267, 4368137639120453308,
 4836135668995329356, 5532061633213252278, 6448918945643986474,
 6902733635092675308, 7801388544844847127]

/-- The eight 64-bit chaining values of a SHA-512 computation. -/
structure SHAState where
  a : Nat
  b : Nat
  c : Nat
  d : Nat
  e : Nat
  f : Nat
  g : Nat
  h : Nat
deriving DecidableEq

/-- SHA-512 initial hash value (FIPS 180-4 section 5.3.5). -/
def shaInit : SHAState :=
  ⟨7640891576956012808, 13503953896175478587, 4354685564936845355,
   11912009170470909681, 5840696475078001361, 11170449401992604703,
   2270897969802886507, 6620516959819538809⟩

/-- One SHA-512 compression round, consuming a round constant paired with a
message-schedule word. -/
def shaRound (st : SHAState) (kw : Nat × Nat) : SHAState :=
  let t1 := add64 (add64 (add64 (add64 st.h (bigSigma1 st.e)) (shaCh st.e st.f st.g)) kw.1) kw.2
  let t2 := add64 (bigSigma0 st.a) (shaMaj st.a st.b st.c)
  ⟨add64 t1 t2, st.a, st.b, st.c, add64 st.d t1, st.e, st.f, st.g⟩

/-- Big-endian bytes of a 64-bit word, taken 8 bytes from 16 big-endian
bytes of the message block, and so on: groups the block's bytes into
64-bit words (big-endian, FIPS 180-4 section 6.4.2 step 1). -/
def toWords : List Nat → List Nat
  | b1 :: b2 :: b3 :: b4 :: b5 :: b6 :: b7 :: b8 :: rest =>
      (((((((b1 * 256 + b2) * 256 + b3) * 256 + b4) * 256 + b5) * 256 + b6)
        * 256 + b7) * 256 + b8) :: toWords rest
  | _ => []

/-- Extends a message schedule by one word (FIPS 180-4 section 6.4.2 step 1,
`16 ≤ t ≤ 79`). -/
def stepW (acc : List Nat) : List Nat :=
  acc ++ [add64
    (add64 (smallSigma1 (acc.getD (acc.length - 2) 0)) (acc.getD (acc.length - 7) 0))
    (add64 (smallSigma0 (acc.getD (acc.length - 15) 0)) (acc.getD (acc.length - 16) 0))]

/-- The 80-word message schedule of one SHA-512 block. -/
def shaSchedule (block : List Nat) : List Nat :=
  (List.range 64).foldl (fun acc _ => stepW acc) (toWords block)

/-- Processes one 128-byte block (FIPS 180-4 section 6.4.2). -/
def shaCompress (st : SHAState) (block : List Nat) : SHAState :=
  let r := (List.zip shaK (shaSchedule block)).foldl shaRound st
  ⟨add64 st.a r.a, add64 st.b r.b, add64 st.c r.c, add64 st.d r.d,
   add64 st.e r.e, add64 st.f r.f, add64 st.g r.g, add64 st.h r.h⟩

/-- Processes the padded message 128 bytes at a time; `fuel` bounds the
recursion and is instantiated with the padded length. -/
def shaBlocks (fuel : Nat) (st : SHAState) (l : List Nat) : SHAState :=
  match fuel with
  | 0 => st
  | fuel + 1 =>
    match l with
    | [] => st
    | _ => shaBlocks fuel (shaCompress st (l.take 128)) (l.drop 128)

/-- `count` big-endian bytes of `n`. -/
def beBytes : Nat → Nat → List Nat
  | 0, _ => []
  | c + 1, n => beBytes c (n / 256) ++ [n % 256]

/-- SHA-512 padding: append `0x80`, zeros to 112 mod 128, then the bit
length as 16 big-endian bytes (FIPS 180-4 section 5.1.2). -/
def shaPad (msg : List Nat) : List Nat :=
  msg ++ 128 :: List.replicate ((239 - msg.length % 128) % 128) 0
      ++ beBytes 16 (8 * msg.length)

/-- SHA-512 of a byte string, as its 64 digest bytes. -/
def sha512 (msg : List Nat) : List Nat :=
  let p := shaPad msg
  let st := shaBlocks p.length shaInit p
  beBytes 8 st.a ++ beBytes 8 st.b ++ beBytes 8 st.c ++ beBytes 8 st.d ++
  beBytes 8 st.e ++ beBytes 8 st.f ++ beBytes 8 st.g ++ beBytes 8 st.h

/-- UTF-8 bytes of one character. -/
def utf8Bytes (c : Char) : List Nat :=
  let n := c.toNat
  if n < 128 then [n]
  else if n < 2048 then [192 + n / 64, 128 + n % 64]
  else if n < 65536 then [224 + n / 4096, 128 + n / 64 % 64, 128 + n % 64]
  else [240 + n / 262144, 128 + n / 4096 % 64, 128 + n / 64 % 64, 128 + n % 64]

/-- The bytes of a (Go) string literal, written as a Lean string. -/
def strBytes (s : String) : List Nat := s.data.flatMap utf8Bytes

/-- Lowercase hex digit byte of a value below 16. -/
def hexDigitL (n : Nat) : Nat := if n < 10 then 48 + n else 87 + n

/-- Lowercase-hex encoding of a byte string (`hex.EncodeToString`). -/
def hexLower (bs : List Nat) : List Nat :=
  bs.flatMap (fun b => [hexDigitL (b / 16), hexDigitL (b % 16)])

/-- ASCII uppercasing of a byte string (`strings.ToUpper`; the inputs it is
applied to are ASCII hex strings, where Go's Unicode case mapping agrees
with the ASCII one). -/
def upperAscii (bs : List Nat) : List Nat :=
  bs.map (fun b => if 97 ≤ b ∧ b ≤ 122 then b - 32 else b)

/-- Byte-wise lexicographic order on byte strings (the order of Go's
`sort.Strings`; UTF-8 byte order, which for valid UTF-8 agrees with
code-point order). -/
def leB : List Nat → List Nat → Bool
  | [], _ => true
  | _ :: _, [] => false
  | a :: as, b :: bs => if a < b then true else if b < a then false else leB as bs

/-- Inserts a byte string into a `leB`-sorted list of byte strings. -/
def insertSorted (x : List Nat) : List (List Nat) → List (List Nat)
  | [] => [x]
  | y :: ys => if leB x y then x :: y :: ys else y :: insertSorted x ys

/-- Ascending byte-wise lexicographic sort (`sort.Strings`).  Implemented as
insertion sort; it produces the same sorted list as Go's sort since equal
byte strings are identical. -/
def sortKeys (l : List (List Nat)) : List (List Nat) := l.foldr insertSorted []

/-- `url.Values`: a mapping from field names to lists of values, modelled as
an association list (a Go map has each key at most once; the functions below
use the first binding of a key, matching map semantics on such lists). -/
abbrev Values : Type := List (List Nat × List (List Nat))

/-- `url.Values.Get`: the first value bound to `key`, or empty when the key
is absent or bound to an empty list. -/
def Values.get (v : Values) (key : List Nat) : List Nat :=
  match v with
  | [] => []
  | (k, vs) :: rest =>
    if k == key then (match vs with | [] => [] | x :: _ => x) else Values.get rest key

/-- ASCII lowercasing of a byte string (`strings.ToLower` on the ASCII
fields handled by this protocol; multi-byte UTF-8 sequences consist of
bytes at or above 128, which are left unchanged). -/
def asciiLower (bs : List Nat) : List Nat :=
  bs.map (fun b => if 65 ≤ b ∧ b ≤ 90 then b + 32 else b)

/-- `GenerateHash` (src/internal/hash/hash.go lines 15-32): collects the
keys whose lowercasing is not "hash", sorts them ascending, concatenates
the first value of each key in that order, appends the integration key,
and returns the upper-hex SHA-512 digest of those bytes. -/
def GenerateHash (values : Values) (integrationKey : List Nat) : List Nat :=
  let keys := (values.map Prod.fst).filter (fun k => !(asciiLower k == strBytes "hash"))
  let sorted := sortKeys keys
  let hashString := sorted.foldl (fun acc k => acc ++ Values.get values k) [] ++ integrationKey
  upperAscii (hexLower (sha512 hashString))

/-- `strings.Split` on a one-byte separator: tokens between occurrences of
`sep` (the empty input yields one empty token, as in Go). -/
def splitOnByte (sep : Nat) : List Nat → List (List Nat)
  | [] => [[]]
  | b :: rest =>
    if b = sep then [] :: splitOnByte sep rest
    else
      match splitOnByte sep rest with
      | t :: ts => (b :: t) :: ts
      | [] => [[b]]

/-- `strings.SplitN(pair, "=", 2)`, as the two parts around the first `=`
(byte 61) when one exists: `none` is Go's length-1 result. -/
def splitN2Eq : List Nat → Option (List Nat × List Nat)
  | [] => none
  | b :: rest =>
    if b = 61 then some ([], rest)
    else (splitN2Eq rest).map (fun kv => (b :: kv.1, kv.2))

/-- Go `ishex`: ASCII hex digit bytes. -/
def isHexByte (b : Nat) : Bool :=
  (48 ≤ b && b ≤ 57) || (97 ≤ b && b ≤ 102) || (65 ≤ b && b ≤ 70)

/-- Go `unhex`: value of an ASCII hex digit byte. -/
def hexByteVal (b : Nat) : Nat :=
  if b ≤ 57 then b - 48 else if 97 ≤ b then b - 87 else b - 55

/-- `url.QueryUnescape`: replaces `%XX` by the byte `XX` and `+` by space;
a `%` not followed by two hex digits is an error carrying the offending
escape snippet (at most three bytes), as in Go's `EscapeError`. -/
def queryUnescape : List Nat → Except (List Nat) (List Nat)
  | [] => .ok []
  | b :: rest =>
    if b = 37 then
      match rest with
      | h1 :: h2 :: rest2 =>
        if isHexByte h1 && isHexByte h2 then
          (queryUnescape rest2).map (fun d => (hexByteVal h1 * 16 + hexByteVal h2) :: d)
        else .error ((b :: rest).take 3)
      | _ => .error ((b :: rest).take 3)
    else if b = 43 then (queryUnescape rest).map (fun d => 32 :: d)
    else (queryUnescape rest).map (fun d => b :: d)

/-- The errors `ValidateHash` can return: a decode failure (wrapping the
offending key and the escape error) or a signature mismatch (carrying the
received and expected signatures). -/
inductive VError where
  | decodeError (key : List Nat) (escErr : List Nat)
  | mismatch (received expected : List Nat)
deriving DecidableEq

deriving instance DecidableEq for Except

/-- The `for _, pair := range pairs` loop of `ValidateHash`, with the
builder and the received hash as explicit state: skips tokens without `=`,
records the value of a pair named (case-insensitively) "hash" as the
received hash, percent-decodes every other value (stopping at the first
decode failure) and appends it to the hash input. -/
def validateLoop : List (List Nat) → List Nat × List Nat →
    Except (List Nat × List Nat) (List Nat × List Nat)
  | [], st => .ok st
  | pair :: rest, (acc, rh) =>
    match splitN2Eq pair with
    | none => validateLoop rest (acc, rh)
    | some (key, value) =>
      if asciiLower key = strBytes "hash" then validateLoop rest (acc, value)
      else
        match queryUnescape value with
        | .error e => .error (key, e)
        | .ok d => validateLoop rest (acc ++ d, rh)

/-- `ValidateHash` (src/internal/hash/hash.go lines 36-69): splits the raw
body on `&`, runs the pair loop, appends the integration key to the
accumulated values, and compares the received hash with the upper-hex
SHA-512 of the result. -/
def ValidateHash (rawBody integrationKey : List Nat) : Except VError Unit :=
  match validateLoop (splitOnByte 38 rawBody) ([], []) with
  | .error (k, e) => .error (.decodeError k e)
  | .ok (acc, receivedHash) =>
    let expectedHash := upperAscii (hexLower (sha512 (acc ++ integrationKey)))
    if receivedHash = expectedHash then .ok () else .error (.mismatch receivedHash expectedHash)

/-- The signature the verifier expects for a given hash input and
integration key: the upper-hex SHA-512 of their concatenation. -/
def expectedFor (input integrationKey : List Nat) : List Nat :=
  upperAscii (hexLower (sha512 (input ++ integrationKey)))

/-- The hash input of the signer as the specification words it: the values
of the fields (first value per name), taken in ascending byte-wise order of
the names, excluding names matching "hash" case-insensitively, followed by
the integration key. -/
def specSignInput (values : Values) (integrationKey : List Nat) : List Nat :=
  ((sortKeys ((values.map Prod.fst).filter
      (fun k => !(asciiLower k == strBytes "hash")))).map (Values.get values)).flatten
    ++ integrationKey

/-- Whether a pair token parses to a name matching "hash" case-insensitively. -/
def isHashPair (t : List Nat) : Bool :=
  match splitN2Eq t with
  | some (k, _) => asciiLower k == strBytes "hash"
  | none => false

/-- The first decode failure among the pair tokens, in wire order: the key
and escape error of the first non-hash pair whose value fails to
percent-decode, skipping tokens without `=` and pairs named "hash". -/
def firstFailure : List (List Nat) → Option (List Nat × List Nat)
  | [] => none
  | t :: rest =>
    match splitN2Eq t with
    | none => firstFailure rest
    | some (k, v) =>
      if asciiLower k == strBytes "hash" then firstFailure rest
      else
        match queryUnescape v with
        | .error e => some (k, e)
        | .ok _ => firstFailure rest

/-- The decoded values of the non-hash pairs, concatenated in wire order
(tokens without `=` and undecodable values contribute nothing). -/
def wireInput : List (List Nat) → List Nat
  | [] => []
  | t :: rest =>
    (match splitN2Eq t with
     | none => []
     | some (k, v) =>
       if asciiLower k == strBytes "hash" then []
       else
         match queryUnescape v with
         | .error _ => []
         | .ok d => d) ++ wireInput rest

/-- The raw value of the last pair named "hash" case-insensitively, in wire
order, starting from a default. -/
def lastHashFrom (rh : List Nat) : List (List Nat) → List Nat
  | [] => rh
  | t :: rest =>
    match splitN2Eq t with
    | some (k, v) =>
      if asciiLower k == strBytes "hash" then lastHashFrom v rest else lastHashFrom rh rest
    | none => lastHashFrom rh rest

/-- Whether a verifier result is a signature-mismatch error. -/
def isMismatchError : Except VError Unit → Bool
  | .error (.mismatch _ _) => true
  | _ => false

/-- Bytes Go's query escaping leaves unescaped: ASCII alphanumerics and
`-`, `_`, `.`, `~`. -/
def isUnreservedByte (b : Nat) : Bool :=
  (48 ≤ b && b ≤ 57) || (65 ≤ b && b ≤ 90) || (97 ≤ b && b ≤ 122) ||
    b == 45 || b == 95 || b == 46 || b == 126

/-- Uppercase hex digit byte of a value below 16. -/
def hexDigitU (n : Nat) : Nat := if n < 10 then 48 + n else 55 + n

/-- Query escaping of one byte: unreserved bytes pass through, space
becomes `+`, every other byte becomes `%XX` with uppercase hex. -/
def escByte (b : Nat) : List Nat :=
  if isUnreservedByte b then [b]
  else if b == 32 then [43]
  else [37, hexDigitU (b / 16), hexDigitU (b % 16)]

/-- `url.QueryEscape` of a byte string. -/
def queryEscape (v : List Nat) : List Nat := v.flatMap escByte

/-- Joins tokens with `&` (byte 38) between them. -/
def joinAmp : List (List Nat) → List Nat
  | [] => []
  | [t] => t
  | t :: rest => t ++ 38 :: joinAmp rest

/-- Modelled from the spec: the serialization of a signed outbound field
set, which lives in the transport layer and not in the hashing package:
`name=value` pairs with percent-encoded values, in ascending name order
(excluding hash-named fields), followed by a final `hash=<sig>` pair. -/
def serializeSigned (values : Values) (sig : List Nat) : List Nat :=
  joinAmp ((sortKeys ((values.map Prod.fst).filter
      (fun k => !(asciiLower k == strBytes "hash")))).map
        (fun k => k ++ 61 :: queryEscape (Values.get values k))
    ++ [strBytes "hash" ++ 61 :: sig])

set_option maxRecDepth 100000
set_option maxHeartbeats 1000000

theorem beBytes_length (c : Nat) : ∀ n, (beBytes c n).length = c := by
  induction c with
  | zero => intro n; rfl
  | succ c ih => intro n; simp [beBytes, ih]

theorem beBytes_lt (c : Nat) : ∀ n, ∀ b ∈ beBytes c n, b < 256 := by
  induction c with
  | zero => intro n b hb; simp [beBytes] at hb
  | succ c ih =>
    intro n b hb
    simp only [beBytes, List.mem_append, List.mem_singleton] at hb
    rcases hb with hb | hb
    · exact ih _ b hb
    · subst hb; exact Nat.mod_lt _ (by omega)

theorem sha512_length (msg : List Nat) : (sha512 msg).length = 64 := by
  simp [sha512, beBytes_length]

theorem sha512_lt (msg : List Nat) : ∀ b ∈ sha512 msg, b < 256 := by
  intro b hb
  simp only [sha512, List.mem_append] at hb
  rcases hb with ((((((hb | hb) | hb) | hb) | hb) | hb) | hb) | hb <;>
    exact beBytes_lt 8 _ b hb

theorem hexLower_length (bs : List Nat) : (hexLower bs).length = 2 * bs.length := by
  induction bs with
  | nil => rfl
  | cons b rest ih => simp [hexLower] at ih ⊢; omega

theorem upperAscii_length (bs : List Nat) : (upperAscii bs).length = bs.length := by
  simp [upperAscii]

theorem upper_hexDigitL_range :
    ∀ m, m < 16 →
      (48 ≤ (if 97 ≤ hexDigitL m ∧ hexDigitL m ≤ 122 then hexDigitL m - 32 else hexDigitL m) ∧
        (if 97 ≤ hexDigitL m ∧ hexDigitL m ≤ 122 then hexDigitL m - 32 else hexDigitL m) ≤ 57) ∨
      (65 ≤ (if 97 ≤ hexDigitL m ∧ hexDigitL m ≤ 122 then hexDigitL m - 32 else hexDigitL m) ∧
        (if 97 ≤ hexDigitL m ∧ hexDigitL m ≤ 122 then hexDigitL m - 32 else hexDigitL m) ≤ 70) := by
  decide

theorem upper_hexLower_mem (bs : List Nat) (hlt : ∀ b ∈ bs, b < 256) :
    ∀ b ∈ upperAscii (hexLower bs), (48 ≤ b ∧ b ≤ 57) ∨ (65 ≤ b ∧ b ≤ 70) := by
  intro b hb
  simp only [upperAscii, hexLower, List.mem_map, List.mem_flatMap] at hb
  obtain ⟨a, ⟨c, hc, ha⟩, hba⟩ := hb
  have hc256 : c < 256 := hlt c hc
  simp only [List.mem_cons, List.mem_singleton, List.not_mem_nil, or_false] at ha
  rcases ha with ha | ha <;> subst ha <;> subst hba
  · exact upper_hexDigitL_range (c / 16) (by omega)
  · exact upper_hexDigitL_range (c % 16) (by omega)

theorem foldl_append_flatten {α β : Type} (f : α → List β) :
    ∀ (l : List α) (acc : List β),
      l.foldl (fun a x => a ++ f x) acc = acc ++ (l.map f).flatten := by
  intro l
  induction l with
  | nil => intro acc; simp
  | cons x xs ih => intro acc; simp [ih]

/-- C8: for every field set and secret, `GenerateHash` is total and returns
exactly 128 bytes, each an ASCII decimal digit or an uppercase `A`-`F`. -/
theorem generateHash_length_hex (values : Values) (integrationKey : List Nat) :
    (GenerateHash values integrationKey).length = 128 ∧
    ∀ b ∈ GenerateHash values integrationKey, (48 ≤ b ∧ b ≤ 57) ∨ (65 ≤ b ∧ b ≤ 70) := by
  constructor
  · show (upperAscii (hexLower (sha512 _))).length = 128
    rw [upperAscii_length, hexLower_length, sha512_length]
  · intro b hb
    exact upper_hexLower_mem _ (sha512_lt _) b hb

/-- C1: `GenerateHash` is the upper-hex SHA-512 of the values of the
non-hash fields concatenated in ascending byte-wise name order followed by
the secret; in particular on `{"a": "1", "b": "2"}` with secret `"key"` it
is the upper-hex SHA-512 of the bytes of `"12key"`. -/
theorem generateHash_sorted_concat :
    (∀ (values : Values) (integrationKey : List Nat),
      GenerateHash values integrationKey =
        upperAscii (hexLower (sha512 (specSignInput values integrationKey)))) ∧
    GenerateHash [(strBytes "a", [strBytes "1"]), (strBytes "b", [strBytes "2"])]
        (strBytes "key") =
      upperAscii (hexLower (sha512 (strBytes "12key"))) := by
  constructor
  · intro values integrationKey
    show upperAscii (hexLower (sha512 _)) = upperAscii (hexLower (sha512 _))
    rw [foldl_append_flatten]
    rfl
  · decide

theorem mem_insertSorted (x y : List Nat) (l : List (List Nat)) :
    y ∈ insertSorted x l ↔ y = x ∨ y ∈ l := by
  induction l with
  | nil => simp [insertSorted]
  | cons a as ih =>
    simp only [insertSorted]
    split
    · simp [List.mem_cons]
    · simp [List.mem_cons, ih]; tauto

theorem mem_sortKeys (x : List Nat) (l : List (List Nat)) :
    x ∈ sortKeys l ↔ x ∈ l := by
  induction l with
  | nil => simp [sortKeys]
  | cons a as ih =>
    show x ∈ insertSorted a (sortKeys as) ↔ _
    rw [mem_insertSorted]
    simp [ih]

theorem foldl_congr_mem {α β : Type} (l : List α) (f g : β → α → β)
    (h : ∀ bb x, x ∈ l → f bb x = g bb x) :
    ∀ b : β, l.foldl f b = l.foldl g b := by
  induction l with
  | nil => intro b; rfl
  | cons a as ih =>
    intro b
    simp only [List.foldl_cons]
    rw [h b a (List.mem_cons_self a as)]
    exact ih (fun bb x hx => h bb x (List.mem_cons_of_mem a hx)) _

theorem get_append_single_ne (values : Values) (name : List Nat)
    (vs : List (List Nat)) (k : List Nat) (h : k ≠ name) :
    Values.get (values ++ [(name, vs)]) k = Values.get values k := by
  induction values with
  | nil =>
    show Values.get [(name, vs)] k = Values.get [] k
    simp only [Values.get]
    rw [if_neg]
    simp only [beq_iff_eq]
    exact fun e => h e.symm
  | cons p rest ih =>
    show Values.get ((p.1, p.2) :: (rest ++ [(name, vs)])) k = _
    simp only [Values.get]
    split
    · rfl
    · exact ih

/-- C4: extending a field set with a field named "hash" in any letter case
never changes the signature: the hash field is excluded from its own
computation. -/
theorem generateHash_hash_field_ignored (values : Values) (name : List Nat)
    (vs : List (List Nat)) (integrationKey : List Nat)
    (h : asciiLower name = strBytes "hash") :
    GenerateHash (values ++ [(name, vs)]) integrationKey =
      GenerateHash values integrationKey := by
  have hkeys : ((values ++ [(name, vs)]).map Prod.fst).filter
        (fun k => !(asciiLower k == strBytes "hash"))
      = (values.map Prod.fst).filter (fun k => !(asciiLower k == strBytes "hash")) := by
    simp [List.filter_append, h]
  simp only [GenerateHash, hkeys]
  have hfold := foldl_congr_mem
    (sortKeys ((values.map Prod.fst).filter (fun k => !(asciiLower k == strBytes "hash"))))
    (fun acc k => acc ++ Values.get (values ++ [(name, vs)]) k)
    (fun acc k => acc ++ Values.get values k)
    (by
      intro bb x hx
      have hxf := (mem_sortKeys x _).mp hx
      have hp := List.of_mem_filter hxf
      have hxn : x ≠ name := by
        intro e
        subst e
        simp [h] at hp
      dsimp only
      rw [get_append_single_ne values name vs x hxn])
  rw [hfold]

theorem generateHash_hash_field_ignored_witness :
    asciiLower (strBytes "HaSh") = strBytes "hash" ∧
    GenerateHash ([(strBytes "a", [strBytes "1"])] ++ [(strBytes "HaSh", [strBytes "zz"])])
        (strBytes "k") =
      GenerateHash [(strBytes "a", [strBytes "1"])] (strBytes "k") :=
  ⟨by decide,
   generateHash_hash_field_ignored [(strBytes "a", [strBytes "1"])] (strBytes "HaSh")
     [strBytes "zz"] (strBytes "k") (by decide)⟩

theorem get_head_irrel (post : Values) (name v : List Nat)
    (vs vs' : List (List Nat)) :
    ∀ (pre : Values) (k : List Nat),
      Values.get (pre ++ (name, v :: vs) :: post) k =
        Values.get (pre ++ (name, v :: vs') :: post) k := by
  intro pre
  induction pre with
  | nil =>
    intro k
    show Values.get ((name, v :: vs) :: post) k = Values.get ((name, v :: vs') :: post) k
    simp only [Values.get]
  | cons p rest ih =>
    intro k
    show Values.get ((p.1, p.2) :: (rest ++ _)) k = Values.get ((p.1, p.2) :: (rest ++ _)) k
    simp only [Values.get]
    split
    · rfl
    · exact ih k

/-- C10: when a field name is bound to several values, only the first value
enters the hash input: dropping the remaining values leaves the signature
unchanged. -/
theorem generateHash_first_value_only (pre post : Values) (name v : List Nat)
    (vs : List (List Nat)) (integrationKey : List Nat) :
    GenerateHash (pre ++ (name, v :: vs) :: post) integrationKey =
      GenerateHash (pre ++ (name, [v]) :: post) integrationKey := by
  have hmap : (pre ++ (name, v :: vs) :: post).map Prod.fst
      = (pre ++ (name, [v]) :: post).map Prod.fst := by simp
  simp only [GenerateHash, hmap]
  have hfold := foldl_congr_mem
    (sortKeys (((pre ++ (name, [v]) :: post).map Prod.fst).filter
      (fun k => !(asciiLower k == strBytes "hash"))))
    (fun acc k => acc ++ Values.get (pre ++ (name, v :: vs) :: post) k)
    (fun acc k => acc ++ Values.get (pre ++ (name, [v]) :: post) k)
    (by
      intro bb x _
      dsimp only
      rw [get_head_irrel post name v vs [] pre x])
  rw [hfold]

theorem validateLoop_eq (ps : List (List Nat)) : ∀ acc rh : List Nat,
    validateLoop ps (acc, rh) =
      match firstFailure ps with
      | some ke => .error ke
      | none => .ok (acc ++ wireInput ps, lastHashFrom rh ps) := by
  induction ps with
  | nil => intro acc rh; simp [validateLoop, firstFailure, wireInput, lastHashFrom]
  | cons t rest ih =>
    intro acc rh
    simp only [validateLoop, firstFailure, wireInput, lastHashFrom]
    cases hsp : splitN2Eq t with
    | none => simpa using ih acc rh
    | some kv =>
      obtain ⟨k, v⟩ := kv
      by_cases hh : asciiLower k = strBytes "hash"
      · simp only [hh, beq_self_eq_true, if_true, if_pos rfl]
        simpa using ih acc v
      · have hh' : (asciiLower k == strBytes "hash") = false := by
          simp [beq_iff_eq, hh]
        simp only [hh', if_neg hh, Bool.false_eq_true, if_false]
        cases hq : queryUnescape v with
        | error e => simp
        | ok d =>
          simp only
          rw [ih (acc ++ d) rh]
          cases firstFailure rest <;> simp

theorem validateHash_eq (raw integrationKey : List Nat) :
    ValidateHash raw integrationKey =
      match firstFailure (splitOnByte 38 raw) with
      | some (k, e) => .error (.decodeError k e)
      | none =>
        if lastHashFrom [] (splitOnByte 38 raw) =
            expectedFor (wireInput (splitOnByte 38 raw)) integrationKey
        then .ok ()
        else .error (.mismatch (lastHashFrom [] (splitOnByte 38 raw))
          (expectedFor (wireInput (splitOnByte 38 raw)) integrationKey)) := by
  simp only [ValidateHash, validateLoop_eq, expectedFor]
  cases firstFailure (splitOnByte 38 raw) with
  | none => simp
  | some ke => obtain ⟨k, e⟩ := ke; simp

/-- C7: whenever some non-hash pair's value fails to percent-decode,
`ValidateHash` returns the decode error of the first failing pair in wire
order, naming the offending field, and no signature comparison occurs. -/
theorem validateHash_first_decode_error (raw integrationKey k0 e0 : List Nat)
    (h : firstFailure (splitOnByte 38 raw) = some (k0, e0)) :
    ValidateHash raw integrationKey = .error (.decodeError k0 e0) := by
  rw [validateHash_eq, h]

theorem validateHash_first_decode_error_witness :
    firstFailure (splitOnByte 38 (strBytes "a=%zz&b=%")) =
      some (strBytes "a", strBytes "%zz") ∧
    ValidateHash (strBytes "a=%zz&b=%") (strBytes "s") =
      .error (.decodeError (strBytes "a") (strBytes "%zz")) :=
  ⟨by decide,
   validateHash_first_decode_error (strBytes "a=%zz&b=%") (strBytes "s")
     (strBytes "a") (strBytes "%zz") (by decide)⟩

/-- C9: when every non-hash value decodes, the verifier compares the raw
(undecoded) value of the last hash-named pair in wire order (`lastHashFrom`
folds left, so later hash pairs override earlier ones) against the digest
of the non-hash values only (`wireInput` drops every hash-named pair). -/
theorem validateHash_last_hash_wins (raw integrationKey : List Nat)
    (h : firstFailure (splitOnByte 38 raw) = none) :
    ValidateHash raw integrationKey =
      if lastHashFrom [] (splitOnByte 38 raw) =
          expectedFor (wireInput (splitOnByte 38 raw)) integrationKey
      then .ok ()
      else .error (.mismatch (lastHashFrom [] (splitOnByte 38 raw))
        (expectedFor (wireInput (splitOnByte 38 raw)) integrationKey)) := by
  rw [validateHash_eq, h]

theorem lastHashFrom_no_hash (ps : List (List Nat))
    (h : ∀ t ∈ ps, isHashPair t = false) : ∀ rh, lastHashFrom rh ps = rh := by
  induction ps with
  | nil => intro rh; rfl
  | cons t rest ih =>
    intro rh
    have ht := h t (List.mem_cons_self t rest)
    have hrest := fun t' ht' => h t' (List.mem_cons_of_mem t ht')
    simp only [lastHashFrom]
    cases hsp : splitN2Eq t with
    | none => exact ih hrest rh
    | some kv =>
      obtain ⟨k, v⟩ := kv
      simp only [isHashPair, hsp] at ht
      simp only [ht, Bool.false_eq_true, if_false]
      exact ih hrest rh

theorem expectedFor_length (input integrationKey : List Nat) :
    (expectedFor input integrationKey).length = 128 := by
  simp [expectedFor, upperAscii_length, hexLower_length, sha512_length]

/-- C6 counterexample: the payload `x=%` contains no hash-named pair, yet
`ValidateHash` returns a decode error, not a mismatch error. -/
theorem validateHash_no_hash_decode_cex :
    ((splitOnByte 38 (strBytes "x=%")).all (fun t => !(isHashPair t))) = true ∧
    ValidateHash (strBytes "x=%") (strBytes "s") =
      .error (.decodeError (strBytes "x") (strBytes "%")) ∧
    isMismatchError (ValidateHash (strBytes "x=%") (strBytes "s")) = false := by
  decide

/-- C6 (amended): on a payload with no hash-named pair all of whose values
percent-decode, `ValidateHash` fails with a mismatch error whose received
signature is the empty string, necessarily different from the non-empty
expected signature. -/
theorem validateHash_missing_hash_mismatch (raw integrationKey : List Nat)
    (hd : firstFailure (splitOnByte 38 raw) = none)
    (hh : ((splitOnByte 38 raw).all (fun t => !(isHashPair t))) = true) :
    ∃ exp, ValidateHash raw integrationKey = .error (.mismatch [] exp) ∧ exp ≠ [] := by
  have hh' : ∀ t ∈ splitOnByte 38 raw, isHashPair t = false := by
    intro t ht
    have := (List.all_eq_true.mp hh) t ht
    simpa using this
  rw [validateHash_eq, hd]
  rw [lastHashFrom_no_hash _ hh' []]
  refine ⟨expectedFor (wireInput (splitOnByte 38 raw)) integrationKey, ?_, ?_⟩
  · rw [if_neg]
    intro he
    have := expectedFor_length (wireInput (splitOnByte 38 raw)) integrationKey
    rw [← he] at this
    simp at this
  · intro he
    have := expectedFor_length (wireInput (splitOnByte 38 raw)) integrationKey
    rw [he] at this
    simp at this

theorem validateHash_missing_hash_mismatch_witness :
    firstFailure (splitOnByte 38 (strBytes "status=Error")) = none ∧
    ((splitOnByte 38 (strBytes "status=Error")).all (fun t => !(isHashPair t))) = true ∧
    ∃ exp, ValidateHash (strBytes "status=Error") (strBytes "s") =
      .error (.mismatch [] exp) ∧ exp ≠ [] :=
  ⟨by decide, by decide,
   validateHash_missing_hash_mismatch (strBytes "status=Error") (strBytes "s")
     (by decide) (by decide)⟩

theorem splitN2Eq_eq_none (t : List Nat) (h : 61 ∉ t) : splitN2Eq t = none := by
  induction t with
  | nil => rfl
  | cons b rest ih =>
    simp only [List.mem_cons, not_or] at h
    simp only [splitN2Eq, if_neg (Ne.symm h.1), ih h.2]
    rfl

theorem splitN2Eq_append (k v : List Nat) (h : 61 ∉ k) :
    splitN2Eq (k ++ 61 :: v) = some (k, v) := by
  induction k with
  | nil => simp [splitN2Eq]
  | cons b rest ih =>
    simp only [List.mem_cons, not_or] at h
    simp only [List.cons_append, splitN2Eq, if_neg (Ne.symm h.1), List.append_eq,
      ih h.2]
    rfl

/-- C5 counterexample: the token `a=b=c` does not contain exactly one `=`,
yet it is not skipped: its value `b=c` enters the hash input, so the
verifier accepts exactly the digest of `"b=c"` and rejects the digest of
the empty input that skipping would produce. -/
theorem validateHash_two_eq_token_cex :
    ValidateHash (strBytes "a=b=c&hash=" ++ expectedFor (strBytes "b=c") []) [] = .ok () ∧
    expectedFor (strBytes "b=c") [] ≠ expectedFor [] [] ∧
    ValidateHash (strBytes "a=b=c&hash=" ++ expectedFor [] []) [] =
      .error (.mismatch (expectedFor [] []) (expectedFor (strBytes "b=c") [])) := by
  refine ⟨by decide, by decide, by decide⟩

/-- C5 (amended): a token containing no `=` at all is skipped without error
and contributes nothing to the loop state; a token containing one or more
`=` is split at its first `=` into name and remainder. -/
theorem validateHash_skip_tokens :
    (∀ (t : List Nat) (rest : List (List Nat)) (acc rh : List Nat), 61 ∉ t →
      validateLoop (t :: rest) (acc, rh) = validateLoop rest (acc, rh)) ∧
    (∀ k v : List Nat, 61 ∉ k → splitN2Eq (k ++ 61 :: v) = some (k, v)) := by
  constructor
  · intro t rest acc rh h
    simp only [validateLoop, splitN2Eq_eq_none t h]
  · exact splitN2Eq_append

theorem validateHash_skip_tokens_witness :
    validateLoop [strBytes "abc"] ([], []) = validateLoop [] ([], []) ∧
    splitN2Eq (strBytes "ab" ++ 61 :: strBytes "c") = some (strBytes "ab", strBytes "c") :=
  ⟨validateHash_skip_tokens.1 (strBytes "abc") [] [] [] (by decide),
   validateHash_skip_tokens.2 (strBytes "ab") (strBytes "c") (by decide)⟩

theorem splitOnByte_no_sep (t : List Nat) (h : 38 ∉ t) : splitOnByte 38 t = [t] := by
  induction t with
  | nil => rfl
  | cons b rest ih =>
    simp only [List.mem_cons, not_or] at h
    simp only [splitOnByte, if_neg (Ne.symm h.1), ih h.2]

theorem splitOnByte_sep_append (pre rest : List Nat) (h : 38 ∉ pre) :
    splitOnByte 38 (pre ++ 38 :: rest) = pre :: splitOnByte 38 rest := by
  induction pre with
  | nil => simp [splitOnByte]
  | cons b p ih =>
    simp only [List.mem_cons, not_or] at h
    simp only [List.cons_append, splitOnByte, if_neg (Ne.symm h.1), List.append_eq, ih h.2]

theorem validateHash_two_pairs_hash (t1 t2 k1 k2 v1 v2 H integrationKey : List Nat)
    (h1 : splitN2Eq t1 = some (k1, v1)) (h2 : splitN2Eq t2 = some (k2, v2))
    (hk1 : (asciiLower k1 == strBytes "hash") = false)
    (hk2 : (asciiLower k2 == strBytes "hash") = false)
    (hq1 : queryUnescape v1 = .ok v1) (hq2 : queryUnescape v2 = .ok v2)
    (h38a : 38 ∉ t1) (h38b : 38 ∉ t2) (h38H : 38 ∉ H) :
    ValidateHash (t1 ++ 38 :: (t2 ++ 38 :: (strBytes "hash" ++ 61 :: H))) integrationKey =
      if H = expectedFor (v1 ++ v2) integrationKey then .ok ()
      else .error (.mismatch H (expectedFor (v1 ++ v2) integrationKey)) := by
  have hsplit : splitOnByte 38 (t1 ++ 38 :: (t2 ++ 38 :: (strBytes "hash" ++ 61 :: H))) =
      [t1, t2, strBytes "hash" ++ 61 :: H] := by
    rw [splitOnByte_sep_append _ _ h38a, splitOnByte_sep_append _ _ h38b,
        splitOnByte_no_sep]
    intro hmem
    rcases List.mem_append.mp hmem with hm | hm
    · revert hm; decide
    · rcases List.mem_cons.mp hm with e | hm
      · omega
      · exact h38H hm
  have hsp3 : splitN2Eq (strBytes "hash" ++ 61 :: H) = some (strBytes "hash", H) :=
    splitN2Eq_append _ _ (by decide)
  have hhash : (asciiLower (strBytes "hash") == strBytes "hash") = true := by decide
  rw [validateHash_eq, hsplit]
  simp only [firstFailure, wireInput, lastHashFrom, h1, h2, hsp3, hk1, hk2, hq1, hq2,
    hhash, Bool.false_eq_true, if_false, if_true, List.append_nil, List.append_assoc]

/-- C2 counterexample: a raw text literally of the form `x=5&y=6&hash=<H>`
on which `ValidateHash` succeeds although `H` is not the digest of `"56s"`:
`H` itself smuggles a second `hash=` pair carrying the correct digest. -/
theorem validateHash_form_iff_cex :
    ValidateHash (strBytes "x=5&y=6&hash=" ++
        (strBytes "z&hash=" ++ expectedFor (strBytes "56") (strBytes "s")))
      (strBytes "s") = .ok () ∧
    strBytes "z&hash=" ++ expectedFor (strBytes "56") (strBytes "s") ≠
      expectedFor (strBytes "56") (strBytes "s") :=
  ⟨by decide, by decide⟩

/-- C2 (amended): for every `H` containing no `&`, the verifier accepts
`x=5&y=6&hash=<H>` with secret `"s"` exactly when `H` is the upper-hex
SHA-512 of `"56s"`, and accepts `y=6&x=5&hash=<H>` exactly when `H` is the
digest of `"65s"`: decoded non-hash values are concatenated in wire order,
not in sorted-name order. -/
theorem validateHash_form_iff (H : List Nat) (h : 38 ∉ H) :
    (ValidateHash (strBytes "x=5&y=6&hash=" ++ H) (strBytes "s") = .ok ()
      ↔ H = expectedFor (strBytes "56") (strBytes "s")) ∧
    (ValidateHash (strBytes "y=6&x=5&hash=" ++ H) (strBytes "s") = .ok ()
      ↔ H = expectedFor (strBytes "65") (strBytes "s")) := by
  constructor
  · have e1 : strBytes "x=5&y=6&hash=" ++ H =
        strBytes "x=5" ++ 38 :: (strBytes "y=6" ++ 38 :: (strBytes "hash" ++ 61 :: H)) := by
      have e0 : strBytes "x=5&y=6&hash=" =
          strBytes "x=5" ++ 38 :: (strBytes "y=6" ++ 38 :: (strBytes "hash" ++ [61])) := by
        decide
      rw [e0]
      simp [List.append_assoc]
    rw [e1, validateHash_two_pairs_hash (strBytes "x=5") (strBytes "y=6")
      (strBytes "x") (strBytes "y") (strBytes "5") (strBytes "6") H (strBytes "s")
      (by decide) (by decide) (by decide) (by decide) (by decide) (by decide)
      (by decide) (by decide) h]
    have e2 : strBytes "5" ++ strBytes "6" = strBytes "56" := by decide
    rw [e2]
    constructor
    · intro hok
      by_cases hc : H = expectedFor (strBytes "56") (strBytes "s")
      · exact hc
      · rw [if_neg hc] at hok
        simp at hok
    · intro he
      rw [if_pos he]
  · have e1 : strBytes "y=6&x=5&hash=" ++ H =
        strBytes "y=6" ++ 38 :: (strBytes "x=5" ++ 38 :: (strBytes "hash" ++ 61 :: H)) := by
      have e0 : strBytes "y=6&x=5&hash=" =
          strBytes "y=6" ++ 38 :: (strBytes "x=5" ++ 38 :: (strBytes "hash" ++ [61])) := by
        decide
      rw [e0]
      simp [List.append_assoc]
    rw [e1, validateHash_two_pairs_hash (strBytes "y=6") (strBytes "x=5")
      (strBytes "y") (strBytes "x") (strBytes "6") (strBytes "5") H (strBytes "s")
      (by decide) (by decide) (by decide) (by decide) (by decide) (by decide)
      (by decide) (by decide) h]
    have e2 : strBytes "6" ++ strBytes "5" = strBytes "65" := by decide
    rw [e2]
    constructor
    · intro hok
      by_cases hc : H = expectedFor (strBytes "65") (strBytes "s")
      · exact hc
      · rw [if_neg hc] at hok
        simp at hok
    · intro he
      rw [if_pos he]

theorem validateHash_form_iff_witness :
    38 ∉ expectedFor (strBytes "56") (strBytes "s") ∧
    ValidateHash (strBytes "x=5&y=6&hash=" ++ expectedFor (strBytes "56") (strBytes "s"))
      (strBytes "s") = .ok () :=
  ⟨by decide,
   ((validateHash_form_iff (expectedFor (strBytes "56") (strBytes "s")) (by decide)).1).mpr rfl⟩

theorem escByte_ne (b : Nat) : ∀ b' ∈ escByte b, b' ≠ 38 ∧ b' ≠ 61 := by
  intro b' hb'
  simp only [escByte] at hb'
  split at hb'
  · rename_i hu
    simp only [List.mem_singleton] at hb'
    subst hb'
    simp only [isUnreservedByte, Bool.or_eq_true, Bool.and_eq_true,
      decide_eq_true_eq, beq_iff_eq] at hu
    omega
  · split at hb'
    · simp only [List.mem_singleton] at hb'
      omega
    · simp only [List.mem_cons, List.mem_singleton, List.not_mem_nil, or_false] at hb'
      rcases hb' with e | e | e <;> subst e
      · omega
      · simp only [hexDigitU]; split <;> omega
      · simp only [hexDigitU]; split <;> omega

theorem queryEscape_ne (v : List Nat) : ∀ b' ∈ queryEscape v, b' ≠ 38 ∧ b' ≠ 61 := by
  intro b' hb'
  simp only [queryEscape, List.mem_flatMap] at hb'
  obtain ⟨b, _, hb'⟩ := hb'
  exact escByte_ne b b' hb'

theorem isHexByte_hexDigitU : ∀ n, n < 16 → isHexByte (hexDigitU n) = true := by decide

theorem hexByteVal_hexDigitU : ∀ n, n < 16 → hexByteVal (hexDigitU n) = n := by decide

theorem queryUnescape_cons_other (b : Nat) (rest : List Nat) (h37 : b ≠ 37) (h43 : b ≠ 43) :
    queryUnescape (b :: rest) = (queryUnescape rest).map (fun d => b :: d) := by
  rw [queryUnescape.eq_def]
  dsimp only
  rw [if_neg h37, if_neg h43]

theorem queryUnescape_cons_plus (rest : List Nat) :
    queryUnescape (43 :: rest) = (queryUnescape rest).map (fun d => 32 :: d) := by
  rw [queryUnescape.eq_def]
  dsimp only
  rw [if_neg (by omega), if_pos rfl]

theorem queryUnescape_cons_esc (d1 d2 : Nat) (rest : List Nat)
    (h1 : isHexByte d1 = true) (h2 : isHexByte d2 = true) :
    queryUnescape (37 :: d1 :: d2 :: rest) =
      (queryUnescape rest).map (fun d => (hexByteVal d1 * 16 + hexByteVal d2) :: d) := by
  rw [queryUnescape.eq_def]
  dsimp only
  rw [if_pos rfl]
  rw [if_pos (by rw [h1, h2]; rfl)]

theorem queryUnescape_escByte (b : Nat) (hb : b < 256) (rest : List Nat) :
    queryUnescape (escByte b ++ rest) = (queryUnescape rest).map (fun d => b :: d) := by
  by_cases hu : isUnreservedByte b = true
  · have hranges : (((((48 ≤ b ∧ b ≤ 57 ∨ 65 ≤ b ∧ b ≤ 90) ∨ 97 ≤ b ∧ b ≤ 122) ∨ b = 45)
        ∨ b = 95) ∨ b = 46) ∨ b = 126 := by
      simpa [isUnreservedByte, Bool.or_eq_true, Bool.and_eq_true, decide_eq_true_eq,
        beq_iff_eq] using hu
    rw [escByte, if_pos hu, List.singleton_append,
      queryUnescape_cons_other b rest (by omega) (by omega)]
  · by_cases h32 : b = 32
    · subst h32
      rw [escByte, if_neg hu, if_pos (show ((32 : Nat) == 32) = true from rfl),
        List.singleton_append, queryUnescape_cons_plus]
    · rw [escByte, if_neg hu, if_neg (by simpa using h32), List.cons_append, List.cons_append,
        List.cons_append, List.nil_append,
        queryUnescape_cons_esc _ _ _ (isHexByte_hexDigitU (b / 16) (by omega))
          (isHexByte_hexDigitU (b % 16) (by omega)),
        hexByteVal_hexDigitU (b / 16) (by omega), hexByteVal_hexDigitU (b % 16) (by omega)]
      have hdm : b / 16 * 16 + b % 16 = b := by omega
      rw [hdm]

theorem queryUnescape_queryEscape (v : List Nat) (hv : ∀ b ∈ v, b < 256) :
    queryUnescape (queryEscape v) = .ok v := by
  induction v with
  | nil => rfl
  | cons b rest ih =>
    have hb := hv b (List.mem_cons_self b rest)
    have hrest := fun x hx => hv x (List.mem_cons_of_mem b hx)
    show queryUnescape (escByte b ++ queryEscape rest) = .ok (b :: rest)
    rw [queryUnescape_escByte b hb, ih hrest]
    rfl

theorem get_bytes_lt (values : Values)
    (hv : ∀ p ∈ values, ∀ v ∈ p.2, ∀ b ∈ v, b < 256) (k : List Nat) :
    ∀ b ∈ Values.get values k, b < 256 := by
  induction values with
  | nil => intro b hb; simp [Values.get] at hb
  | cons p rest ih =>
    intro b hb
    obtain ⟨k0, vs⟩ := p
    simp only [Values.get] at hb
    split at hb
    · cases vs with
      | nil => simp at hb
      | cons x xs =>
        exact hv (k0, x :: xs) (List.mem_cons_self _ _) x (List.mem_cons_self x xs) b hb
    · exact ih (fun q hq => hv q (List.mem_cons_of_mem _ hq)) b hb

theorem splitOnByte_joinAmp : ∀ ts : List (List Nat), ts ≠ [] →
    (∀ t ∈ ts, 38 ∉ t) → splitOnByte 38 (joinAmp ts) = ts := by
  intro ts
  induction ts with
  | nil => intro h; cases h rfl
  | cons t rest ih =>
    intro _ h
    cases rest with
    | nil => simpa [joinAmp] using splitOnByte_no_sep t (h t (List.mem_cons_self t []))
    | cons t2 rest2 =>
      show splitOnByte 38 (t ++ 38 :: joinAmp (t2 :: rest2)) = _
      rw [splitOnByte_sep_append _ _ (h t (List.mem_cons_self t _))]
      rw [ih (by simp) (fun x hx => h x (List.mem_cons_of_mem t hx))]

theorem serialized_tokens_spec (values : Values) (sig : List Nat) :
    ∀ ks : List (List Nat),
      (∀ k ∈ ks, 61 ∉ k ∧ (asciiLower k == strBytes "hash") = false ∧
        queryUnescape (queryEscape (Values.get values k)) = .ok (Values.get values k)) →
      firstFailure (ks.map (fun k => k ++ 61 :: queryEscape (Values.get values k))
          ++ [strBytes "hash" ++ 61 :: sig]) = none ∧
      wireInput (ks.map (fun k => k ++ 61 :: queryEscape (Values.get values k))
          ++ [strBytes "hash" ++ 61 :: sig]) = (ks.map (Values.get values)).flatten ∧
      ∀ rh, lastHashFrom rh (ks.map (fun k => k ++ 61 :: queryEscape (Values.get values k))
          ++ [strBytes "hash" ++ 61 :: sig]) = sig := by
  intro ks
  induction ks with
  | nil =>
    intro _
    have hsp : splitN2Eq (strBytes "hash" ++ 61 :: sig) = some (strBytes "hash", sig) :=
      splitN2Eq_append _ _ (by decide)
    have hhash : (asciiLower (strBytes "hash") == strBytes "hash") = true := by decide
    refine ⟨?_, ?_, fun rh => ?_⟩ <;>
      simp [firstFailure, wireInput, lastHashFrom, hsp, hhash]
  | cons k ks ih =>
    intro h
    obtain ⟨h61, hkh, hqd⟩ := h k (List.mem_cons_self k ks)
    have hrest := ih (fun x hx => h x (List.mem_cons_of_mem k hx))
    have hsp : splitN2Eq (k ++ 61 :: queryEscape (Values.get values k)) =
        some (k, queryEscape (Values.get values k)) := splitN2Eq_append _ _ h61
    refine ⟨?_, ?_, fun rh => ?_⟩
    · simp only [List.map_cons, List.cons_append, firstFailure, hsp, hkh,
        Bool.false_eq_true, if_false, hqd]
      exact hrest.1
    · simp only [List.map_cons, List.cons_append, wireInput, hsp, hkh,
        Bool.false_eq_true, if_false, hqd, List.append_eq]
      rw [hrest.2.1, List.flatten_cons]
    · simp only [List.map_cons, List.cons_append, lastHashFrom, hsp, hkh,
        Bool.false_eq_true, if_false]
      exact hrest.2.2 rh

/-- C3 counterexample: on the field set `{"a=b": "1"}` (a name containing
`=`) signing then serializing then verifying fails: the verifier splits the
token `a=b=1` at its first `=` and hashes `b=1` where the signer hashed
`1`. -/
theorem roundTrip_cex :
    ValidateHash (serializeSigned [(strBytes "a=b", [strBytes "1"])]
        (GenerateHash [(strBytes "a=b", [strBytes "1"])] [])) [] =
      .error (.mismatch (expectedFor (strBytes "1") []) (expectedFor (strBytes "b=1") [])) ∧
    ValidateHash (serializeSigned [(strBytes "a=b", [strBytes "1"])]
        (GenerateHash [(strBytes "a=b", [strBytes "1"])] [])) [] ≠ .ok () :=
  ⟨by decide, by decide⟩

/-- C3 (amended): for every field set whose names contain neither `&` nor
`=` (and whose values are byte strings), signing with `GenerateHash`,
serializing as `name=value&...&hash=<sig>` with percent-encoded values in
sorted-name wire order, and verifying with the same secret succeeds. -/
theorem sign_serialize_validate_roundTrip (values : Values) (integrationKey : List Nat)
    (hkeys : ∀ k ∈ values.map Prod.fst, 38 ∉ k ∧ 61 ∉ k)
    (hvals : ∀ p ∈ values, ∀ v ∈ p.2, ∀ b ∈ v, b < 256) :
    ValidateHash (serializeSigned values (GenerateHash values integrationKey))
      integrationKey = .ok () := by
  have hsig38 : ∀ b ∈ GenerateHash values integrationKey, b ≠ 38 ∧ b ≠ 61 := by
    intro b hb
    have hr := upper_hexLower_mem _ (sha512_lt _) b hb
    omega
  have hmemfst : ∀ k ∈ sortKeys ((values.map Prod.fst).filter
      (fun k => !(asciiLower k == strBytes "hash"))), k ∈ values.map Prod.fst := by
    intro k hk
    exact List.mem_of_mem_filter ((mem_sortKeys k _).mp hk)
  have hno38 : ∀ t ∈ ((sortKeys ((values.map Prod.fst).filter
        (fun k => !(asciiLower k == strBytes "hash")))).map
          (fun k => k ++ 61 :: queryEscape (Values.get values k))
      ++ [strBytes "hash" ++ 61 :: GenerateHash values integrationKey]), 38 ∉ t := by
    intro t ht
    rcases List.mem_append.mp ht with hm | hm
    · obtain ⟨k, hk, rfl⟩ := List.mem_map.mp hm
      intro hin
      rcases List.mem_append.mp hin with hik | hiv
      · exact (hkeys k (hmemfst k hk)).1 hik
      · rcases List.mem_cons.mp hiv with e | hiv
        · omega
        · exact (queryEscape_ne _ 38 hiv).1 rfl
    · rw [List.mem_singleton.mp hm]
      intro hin
      rcases List.mem_append.mp hin with hik | hiv
      · revert hik; decide
      · rcases List.mem_cons.mp hiv with e | hiv
        · omega
        · exact (hsig38 38 hiv).1 rfl
  have hsplit : splitOnByte 38 (serializeSigned values (GenerateHash values integrationKey)) =
      (sortKeys ((values.map Prod.fst).filter
        (fun k => !(asciiLower k == strBytes "hash")))).map
          (fun k => k ++ 61 :: queryEscape (Values.get values k))
      ++ [strBytes "hash" ++ 61 :: GenerateHash values integrationKey] :=
    splitOnByte_joinAmp _ (by simp) hno38
  obtain ⟨hff, hwi, hlh⟩ := serialized_tokens_spec values (GenerateHash values integrationKey)
    (sortKeys ((values.map Prod.fst).filter (fun k => !(asciiLower k == strBytes "hash"))))
    (by
      intro k hk
      have hkm := hmemfst k hk
      refine ⟨(hkeys k hkm).2, ?_, ?_⟩
      · have hp := List.of_mem_filter ((mem_sortKeys k _).mp hk)
        simpa using hp
      · exact queryUnescape_queryEscape _ (get_bytes_lt values hvals k))
  rw [validateHash_eq, hsplit, hff, hlh [], hwi]
  rw [if_pos]
  show upperAscii (hexLower (sha512 _)) = upperAscii (hexLower (sha512 _))
  rw [foldl_append_flatten]
  rfl

theorem sign_serialize_validate_roundTrip_witness :
    (∀ k ∈ ([(strBytes "a", [strBytes "1"]), (strBytes "b", [strBytes "2"])] : Values).map
      Prod.fst, 38 ∉ k ∧ 61 ∉ k) ∧
    (∀ p ∈ ([(strBytes "a", [strBytes "1"]), (strBytes "b", [strBytes "2"])] : Values),
      ∀ v ∈ p.2, ∀ b ∈ v, b < 256) ∧
    ValidateHash (serializeSigned [(strBytes "a", [strBytes "1"]), (strBytes "b", [strBytes "2"])]
        (GenerateHash [(strBytes "a", [strBytes "1"]), (strBytes "b", [strBytes "2"])]
          (strBytes "key")))
      (strBytes "key") = .ok () :=
  ⟨by decide, by decide,
   sign_serialize_validate_roundTrip
     [(strBytes "a", [strBytes "1"]), (strBytes "b", [strBytes "2"])]
     (strBytes "key") (by decide) (by decide)⟩

theorem validateHash_last_hash_wins_witness :
    firstFailure (splitOnByte 38 (strBytes "a=1&hash=X&hash=Y")) = none ∧
    ValidateHash (strBytes "a=1&hash=X&hash=Y") (strBytes "k") =
      .error (.mismatch (strBytes "Y") (expectedFor (strBytes "1") (strBytes "k"))) := by
  refine ⟨by decide, ?_⟩
  rw [validateHash_last_hash_wins (strBytes "a=1&hash=X&hash=Y") (strBytes "k") (by decide)]
  decide
